import Mathlib

/-!
# Verification of `fm4tlp/models/jodie.py`

A shallow embedding of the JODIE temporal-link-prediction model
(`fm4tlp/models/jodie.py`) and proofs of the specification claims about it.

Modelling conventions:
* tensors are Lean lists: 1-D float tensors are `List ℚ`, 2-D float tensors
  are `List (List ℚ)`, node-index tensors are `List ℕ`, timestamp tensors are
  `List ℕ`;
* the neural sub-modules built in `_initialize_model` (`TimeEmbedding`,
  `LinkPredictor`, `StructMapper`, the two loss criteria, and the memory
  updater of `TGNMemory`) live in `fm4tlp/modules/...` and are kept abstract:
  they are function-valued fields of the `JODIE` structure, so every theorem
  below holds for all of their possible semantics;
* fallible tensor indexing is modelled with `Option` (`gather?` below fails
  exactly when an index is out of range, the way torch advanced indexing
  raises);
* `predict_memory_embeddings`, which can `raise RuntimeError`, returns
  `Except String _`.
-/

/-- The position of the first occurrence of `v` in a list (`0` when `v` is
absent); the index-of operation used to model `torch.unique`'s inverse
indices and the `_assoc` scatter. -/
def firstIdx (v : ℕ) : List ℕ → ℕ
  | [] => 0
  | a :: l => if a = v then 0 else firstIdx v l + 1

/-- Safe tensor gather: `gather? xs is` models `xs[is]` for an index tensor
`is`; it returns `none` exactly when some index is out of range. -/
def gather? {α : Type} : List α → List ℕ → Option (List α)
  | _, [] => some []
  | xs, i :: is =>
      (xs.get? i).bind fun v => (gather? xs is).map fun vs => v :: vs

/-- Inclusive cumulative sum, modelling `torch.cumsum(dim=0)` on a 1-D
tensor. -/
def cumsum : List ℕ → List ℕ
  | [] => []
  | a :: l => a :: (cumsum l).map (a + ·)

/-- The exclusive cumulative sum computed by the two source lines
`cum_sum = n_counts.cumsum(0)` and
`cum_sum = torch.cat((torch.tensor([0]), cum_sum[:-1]))`. -/
def exclCumsum (l : List ℕ) : List ℕ := 0 :: (cumsum l).dropLast

/-- The sorted unique values of `torch.unique`. -/
def torchUnique (ns : List ℕ) : List ℕ := (List.insertionSort (· ≤ ·) ns).dedup

/-- The inverse indices of `torch.unique(..., return_inverse=True)`: the
position of each input element in the unique list. -/
def torchUniqueInverse (ns : List ℕ) : List ℕ :=
  ns.map fun x => firstIdx x (torchUnique ns)

/-- The counts of `torch.unique(..., return_counts=True)`: the multiplicity
of each unique value in the input. -/
def torchUniqueCounts (ns : List ℕ) : List ℕ :=
  (torchUnique ns).map fun u => ns.count u

/-- The index order `torch.sort(ys, stable=True)` sorts by: strictly smaller
value first, and for equal values the smaller original position first. -/
def stableRank (ys : List ℕ) (i j : ℕ) : Prop :=
  ys.getD i 0 < ys.getD j 0 ∨ (ys.getD i 0 = ys.getD j 0 ∧ i ≤ j)

instance (ys : List ℕ) : DecidableRel (stableRank ys) := fun i j => by
  unfold stableRank; infer_instance

instance (ys : List ℕ) : IsTotal ℕ (stableRank ys) where
  total i j := by
    unfold stableRank
    rcases Nat.lt_trichotomy (ys.getD i 0) (ys.getD j 0) with h | h | h
    · exact Or.inl (Or.inl h)
    · rcases Nat.le_total i j with hij | hij
      · exact Or.inl (Or.inr ⟨h, hij⟩)
      · exact Or.inr (Or.inr ⟨h.symm, hij⟩)
    · exact Or.inr (Or.inl h)

instance (ys : List ℕ) : IsTrans ℕ (stableRank ys) where
  trans i j k hij hjk := by
    unfold stableRank at *
    rcases hij with h1 | ⟨h1, h1'⟩ <;> rcases hjk with h2 | ⟨h2, h2'⟩
    · exact Or.inl (h1.trans h2)
    · exact Or.inl (h2 ▸ h1)
    · exact Or.inl (h1 ▸ h2)
    · exact Or.inr ⟨h1.trans h2, h1'.trans h2'⟩

/-- The sorting indices `_, idx_sorted = torch.sort(n_idx, stable=True)`:
the permutation of positions that stably sorts `ys`. -/
def argsortStable (ys : List ℕ) : List ℕ :=
  List.insertionSort (stableRank ys) (List.range ys.length)

/-- The temporal dataset object; `predict_on_edges` reads only its
timestamp tensor `data.t`. -/
structure TemporalData where
  t : List ℕ

/-- The recent-neighbor loader passed to (and ignored by) the JODIE methods. -/
structure LastNeighborLoader where
  neighbors : ℕ → List ℕ

/-- `model_config_pb2.ModelConfig`: the fields of the model configuration
read by `jodie.py`. -/
structure ModelConfig where
  memory_dimension : ℕ
  time_dimension : ℕ
  embedding_dimension : ℕ
  learning_rate : ℚ
  structural_mapping_hidden_dim : ℤ
  alpha : ℚ

/-- The kinds of sub-modules `_initialize_model` instantiates. -/
inductive ComponentKind where
  | tgnMemory
  | timeEmbedding
  | linkPredictor
  | structMapper
  deriving DecidableEq

/-- The state held by the `TGNMemory` module: a memory vector and a
last-update timestamp per node. -/
structure MemoryState where
  memVec : ℕ → List ℚ
  lastUpdate : ℕ → ℕ

/-- The prediction record `model_template.ModelPrediction`. -/
structure ModelPrediction where
  y_pred_pos : List ℚ
  y_pred_neg : Option (List ℚ)

/-- The JODIE model: its configuration, mutable state, and the abstract
semantics of the sub-modules created in `_initialize_model`. -/
structure JODIE where
  config : ModelConfig
  total_num_nodes : ℕ
  /-- The helper vector `self._assoc` mapping global node ids to local ones. -/
  assoc : List ℕ
  /-- The current state of `self._memory` (a `TGNMemory`). -/
  memory_state : MemoryState
  /-- The state transition of `TGNMemory.update_state`, abstract: it receives
  exactly the prior state, `src`, `dst`, `t` and `raw_msg`. -/
  update_state : MemoryState → List ℕ → List ℕ → List ℕ → List (List ℚ) → MemoryState
  /-- `self._gnn`, a `TimeEmbedding`: maps memory embeddings, last-updated
  timestamps and first-event timestamps to node embeddings. -/
  gnn : List (List ℚ) → List ℕ → List ℕ → List (List ℚ)
  /-- `self._link_pred`, a `LinkPredictor`: maps source and destination node
  embeddings to edge scores. -/
  link_pred : List (List ℚ) → List (List ℚ) → List ℚ
  /-- `self._struct_mapper`, a `StructMapper`. -/
  struct_mapper : List (List ℚ) → List (List ℚ)
  /-- `self._criterion`, the `torch.nn.BCEWithLogitsLoss()` instance. -/
  criterion : List ℚ → List ℚ → ℚ
  /-- `self._criterion_struct`, the `torch.nn.MSELoss()` instance. -/
  criterion_struct : List (List ℚ) → List (List ℚ) → ℚ

/-- The dictionary `self._model_components` built by `_initialize_model`:
always `memory`, `gnn` and `link_pred`, plus `struct_mapper` exactly when
`structural_mapping_hidden_dim > 0`. -/
def initialize_components (cfg : ModelConfig) : List (String × ComponentKind) :=
  [("memory", ComponentKind.tgnMemory),
   ("gnn", ComponentKind.timeEmbedding),
   ("link_pred", ComponentKind.linkPredictor)] ++
    (if cfg.structural_mapping_hidden_dim > 0 then
      [("struct_mapper", ComponentKind.structMapper)]
    else [])

/-- `JODIE.has_memory`: always `True`. -/
def has_memory (_m : JODIE) : Bool := true

/-- `JODIE.has_struct_mapper`:
`self._config.structural_mapping_hidden_dim > 0`. -/
def has_struct_mapper (m : JODIE) : Bool :=
  m.config.structural_mapping_hidden_dim > 0

/-- Modelled from the spec: the forward pass `self._memory(n_id)` of the
memory module (`fm4tlp/modules/memory_module.py`, not under `src/`).  The
spec describes it as the model's memory module; it returns, for each queried
node, that node's current memory vector and last-update timestamp. -/
def memoryForward (m : JODIE) (n_id : List ℕ) : List (List ℚ) × List ℕ :=
  (n_id.map m.memory_state.memVec, n_id.map m.memory_state.lastUpdate)

/-- `JODIE.update_memory`: deletes `target_nodes_neg`, `last_neighbor_loader`
and `data`, then calls `self._memory.update_state(src, dst, t, raw_msg)`. -/
def update_memory (m : JODIE) (source_nodes target_nodes_pos : List ℕ)
    (_target_nodes_neg : Option (List ℕ)) (timestamps : List ℕ)
    (messages : List (List ℚ)) (_last_neighbor_loader : LastNeighborLoader)
    (_data : TemporalData) : JODIE :=
  { m with
    memory_state :=
      m.update_state m.memory_state source_nodes target_nodes_pos timestamps
        messages }

/-- `torch.ones_like` on a 1-D tensor. -/
def onesLike (xs : List ℚ) : List ℚ := xs.map fun _ => 1

/-- `torch.zeros_like` on a 1-D tensor. -/
def zerosLike (xs : List ℚ) : List ℚ := xs.map fun _ => 0

/-- `JODIE.compute_loss`: returns `(model_loss, structmap_loss)`. -/
def compute_loss (m : JODIE) (model_prediction : ModelPrediction)
    (predicted_memory_emb memory_emb : List (List ℚ)) : ℚ × ℚ :=
  let model_loss :=
    m.criterion model_prediction.y_pred_pos (onesLike model_prediction.y_pred_pos)
  let model_loss :=
    match model_prediction.y_pred_neg with
    | some y_neg => model_loss + m.criterion y_neg (zerosLike y_neg)
    | none => model_loss
  let structmap_loss : ℚ := 0
  let structmap_loss :=
    if has_struct_mapper m then
      structmap_loss +
        m.criterion_struct predicted_memory_emb memory_emb * m.config.alpha
    else structmap_loss
  (model_loss, structmap_loss)

/-- The concatenation building `all_nodes` in `predict_on_edges`. -/
def allNodesOf (source_nodes target_nodes_pos : List ℕ)
    (target_nodes_neg : Option (List ℕ)) : List ℕ :=
  let all_nodes := source_nodes ++ target_nodes_pos
  match target_nodes_neg with
  | some neg => all_nodes ++ neg
  | none => all_nodes

/-- `all_times = data.t.repeat(3)`. -/
def allTimesOf (t : List ℕ) : List ℕ := t ++ t ++ t

/-- The scatter `self._assoc[n_id] = torch.arange(n_id.size(0))`: positions
listed in `n_id` receive their index in `n_id`, other entries keep their old
value. -/
def scatterArange (assoc : List ℕ) (n_id : List ℕ) : List ℕ :=
  assoc.mapIdx fun v old => if v ∈ n_id then firstIdx v n_id else old

/-- `first_indices = idx_sorted[cum_sum]` for the stable argsort of the
unique-inverse indices and the exclusive cumulative sum of the unique
counts. -/
def firstIndices? (ns : List ℕ) : Option (List ℕ) :=
  gather? (argsortStable (torchUniqueInverse ns)) (exclCumsum (torchUniqueCounts ns))

/-- `node_first_event_timestamps = all_times[first_indices]`. -/
def firstEventTimestamps? (ns : List ℕ) (t : List ℕ) : Option (List ℕ) :=
  (firstIndices? ns).bind fun first_indices =>
    gather? (allTimesOf t) first_indices

/-- The node embeddings of `predict_on_edges`: the `TimeEmbedding` applied to
the memory embeddings of the unique nodes, their last-updated timestamps, and
the inferred first-event timestamps, in that order. -/
def nodeEmbeddings? (m : JODIE) (ns : List ℕ) (t : List ℕ) :
    Option (List (List ℚ)) :=
  (firstEventTimestamps? ns t).map fun nfet =>
    m.gnn (memoryForward m (torchUnique ns)).1
      (memoryForward m (torchUnique ns)).2 nfet

/-- `node_embeddings[self._assoc[nodes]]`: the rows of the node-embedding
matrix selected for a list of global node ids. -/
def localEmbeddings? (m : JODIE) (ns : List ℕ) (t : List ℕ)
    (nodes : List ℕ) : Option (List (List ℚ)) :=
  (nodeEmbeddings? m ns t).bind fun node_embeddings =>
    (gather? (scatterArange m.assoc (torchUnique ns)) nodes).bind fun loc =>
      gather? node_embeddings loc

/-- `JODIE.predict_on_edges`. -/
def predict_on_edges (m : JODIE) (source_nodes target_nodes_pos : List ℕ)
    (target_nodes_neg : Option (List ℕ)) (data : TemporalData) :
    Option ModelPrediction :=
  let all_nodes := allNodesOf source_nodes target_nodes_pos target_nodes_neg
  let n_id := torchUnique all_nodes
  let n_idx := torchUniqueInverse all_nodes
  let n_counts := torchUniqueCounts all_nodes
  let assoc := scatterArange m.assoc n_id
  let idx_sorted := argsortStable n_idx
  let cum_sum := exclCumsum n_counts
  (gather? idx_sorted cum_sum).bind fun first_indices =>
  (gather? (allTimesOf data.t) first_indices).bind
    fun node_first_event_timestamps =>
  let memlu := memoryForward m n_id
  let node_embeddings := m.gnn memlu.1 memlu.2 node_first_event_timestamps
  (gather? assoc source_nodes).bind fun src_loc =>
  (gather? node_embeddings src_loc).bind fun src_emb =>
  (gather? assoc target_nodes_pos).bind fun pos_loc =>
  (gather? node_embeddings pos_loc).bind fun pos_emb =>
  let y_pred_pos := m.link_pred src_emb pos_emb
  match target_nodes_neg with
  | none => some { y_pred_pos := y_pred_pos, y_pred_neg := none }
  | some neg =>
      (gather? assoc neg).bind fun neg_loc =>
      (gather? node_embeddings neg_loc).bind fun neg_emb =>
      some { y_pred_pos := y_pred_pos,
             y_pred_neg := some (m.link_pred src_emb neg_emb) }

/-- `JODIE.get_memory_embeddings`: `z, _ = self._memory(n_id); return z[0]`. -/
def get_memory_embeddings (m : JODIE) (n_id : List ℕ) : Option (List ℚ) :=
  (memoryForward m n_id).1.get? 0

/-- `JODIE.predict_memory_embeddings`: raises when the struct mapper is
absent, otherwise applies it to the structural features. -/
def predict_memory_embeddings (m : JODIE) (structral_feat : List (List ℚ)) :
    Except String (List (List ℚ)) :=
  if has_struct_mapper m then Except.ok (m.struct_mapper structral_feat)
  else Except.error "Struct mapper is not available."

/-! ## Basic lemmas about the tensor-operation models -/

theorem firstIdx_lt_length {v : ℕ} : ∀ {l : List ℕ}, v ∈ l → firstIdx v l < l.length := by
  intro l hv
  induction l with
  | nil => cases hv
  | cons a l ih =>
      by_cases h : a = v
      · simp [firstIdx, h]
      · rcases List.mem_cons.mp hv with rfl | hv'
        · exact absurd rfl h
        · simpa [firstIdx, h] using ih hv'

theorem getD_firstIdx {v : ℕ} : ∀ {l : List ℕ}, v ∈ l → l.getD (firstIdx v l) 0 = v := by
  intro l hv
  induction l with
  | nil => cases hv
  | cons a l ih =>
      by_cases h : a = v
      · simp [firstIdx, h]
      · rcases List.mem_cons.mp hv with rfl | hv'
        · exact absurd rfl h
        · simpa [firstIdx, h] using ih hv'

theorem firstIdx_le_of_getD : ∀ {l : List ℕ} {k i : ℕ},
    i < l.length → l.getD i 0 = k → firstIdx k l ≤ i := by
  intro l
  induction l with
  | nil => intro k i hi; simp at hi
  | cons a l ih =>
      intro k i hi hg
      cases i with
      | zero =>
          simp only [List.getD_cons_zero] at hg
          simp [firstIdx, hg]
      | succ j =>
          by_cases h : a = k
          · simp [firstIdx, h]
          · simp only [List.getD_cons_succ] at hg
            have := ih (by simpa using Nat.lt_of_succ_lt_succ hi) hg
            simp only [firstIdx, h, if_false]
            omega

theorem firstIdx_getD_of_nodup : ∀ {l : List ℕ}, l.Nodup → ∀ {j : ℕ},
    j < l.length → firstIdx (l.getD j 0) l = j := by
  intro l hl
  induction l with
  | nil => intro j hj; simp at hj
  | cons a l ih =>
      intro j hj
      cases j with
      | zero => simp [firstIdx]
      | succ i =>
          have hi : i < l.length := by simpa using Nat.lt_of_succ_lt_succ hj
          have hmem : l.getD i 0 ∈ l := by
            rw [List.getD_eq_getElem?_getD, List.getElem?_eq_getElem hi]
            exact List.getElem_mem hi
          have hne : a ≠ l.getD i 0 := fun he =>
            (List.nodup_cons.mp hl).1 (he ▸ hmem)
          simp only [List.getD_cons_succ, firstIdx, hne, if_false]
          rw [ih (List.nodup_cons.mp hl).2 hi]

theorem firstIdx_map_congr {f : ℕ → ℕ} {j v : ℕ} : ∀ {l : List ℕ},
    (∀ x ∈ l, f x = j ↔ x = v) → firstIdx j (l.map f) = firstIdx v l := by
  intro l h
  induction l with
  | nil => rfl
  | cons a l ih =>
      have ha := h a (List.mem_cons_self a l)
      by_cases hfa : f a = j
      · have hav := ha.mp hfa
        subst hav
        simp [firstIdx, hfa]
      · have hav : ¬ a = v := fun he => hfa (ha.mpr he)
        simp only [List.map_cons, firstIdx, hfa, hav, if_false]
        rw [ih fun x hx => h x (List.mem_cons_of_mem _ hx)]

theorem getElem?_of_lt {α : Type} {xs : List α} {i : ℕ} (h : i < xs.length) (d : α) :
    xs[i]? = some (xs.getD i d) := by
  simp [List.getElem?_eq_getElem h, List.getD_eq_getElem?_getD]

theorem gather?_nil {α : Type} (xs : List α) : gather? xs [] = some [] := rfl

theorem gather?_cons {α : Type} (xs : List α) (i : ℕ) (is : List ℕ) :
    gather? xs (i :: is) =
      (xs[i]?).bind fun v => (gather? xs is).map fun vs => v :: vs := by
  simp [gather?, List.get?_eq_getElem?]

theorem gather?_eq_map {α : Type} (xs : List α) (f : ℕ → α) :
    ∀ {is : List ℕ}, (∀ i ∈ is, xs[i]? = some (f i)) →
      gather? xs is = some (is.map f) := by
  intro is h
  induction is with
  | nil => rfl
  | cons i is ih =>
      have h1 : xs[i]? = some (f i) := h i (List.mem_cons_self i is)
      have h2 := ih fun j hj => h j (List.mem_cons_of_mem _ hj)
      rw [gather?_cons, h1, h2]
      rfl

theorem mem_of_gather? {α : Type} {xs : List α} :
    ∀ {is : List ℕ} {vs : List α}, gather? xs is = some vs →
      ∀ v ∈ vs, v ∈ xs := by
  intro is
  induction is with
  | nil =>
      intro vs h v hv
      rw [gather?_nil, Option.some.injEq] at h
      subst h
      cases hv
  | cons i is ih =>
      intro vs h v hv
      rw [gather?_cons] at h
      cases hx : xs[i]? with
      | none => rw [hx] at h; simp at h
      | some a =>
          rw [hx] at h
          cases hr : gather? xs is with
          | none => rw [hr] at h; simp at h
          | some ws =>
              rw [hr] at h
              simp only [Option.map_some', Option.some_bind, Option.some.injEq] at h
              subst h
              rcases List.mem_cons.mp hv with rfl | hv'
              · exact List.getElem?_mem hx
              · exact ih hr v hv'

theorem gather?_isSome {α : Type} {xs : List α} {is : List ℕ} (d : α)
    (h : ∀ i ∈ is, i < xs.length) : (gather? xs is).isSome = true := by
  rw [gather?_eq_map xs (fun i => xs.getD i d) fun i hi => getElem?_of_lt (h i hi) d]
  rfl

theorem gather?_pointwise {α : Type} {xs : List α} :
    ∀ {is : List ℕ} {vs : List α}, is.length = vs.length →
      (∀ j, j < is.length → ∃ i, is[j]? = some i ∧ xs[i]? = vs[j]?) →
      gather? xs is = some vs := by
  intro is
  induction is with
  | nil =>
      intro vs hlen _
      cases vs with
      | nil => rfl
      | cons v vs => simp at hlen
  | cons i is ih =>
      intro vs hlen hpt
      cases vs with
      | nil => simp at hlen
      | cons v vs =>
          obtain ⟨i0, hi0, hx0⟩ := hpt 0 (by simp)
          have hi0' : i0 = i := by
            simp only [List.getElem?_cons_zero, Option.some.injEq] at hi0
            exact hi0.symm
          subst hi0'
          have hx0' : xs[i0]? = some v := by simpa using hx0
          have hrest : gather? xs is = some vs := by
            apply ih (by simpa using hlen)
            intro j hj
            obtain ⟨i', hi', hx'⟩ := hpt (j + 1) (by simpa using Nat.succ_lt_succ hj)
            exact ⟨i', by simpa using hi', by simpa using hx'⟩
          rw [gather?_cons, hx0', hrest]
          rfl

theorem map_getD_range {α : Type} (ys : List α) (d : α) :
    (List.range ys.length).map (fun i => ys.getD i d) = ys := by
  apply List.ext_getElem
  · simp
  · intro i h1 h2
    simp [List.getD_eq_getElem?_getD, List.getElem?_eq_getElem h2]

/-! ## Cumulative sums and counts -/

theorem cumsum_length : ∀ l : List ℕ, (cumsum l).length = l.length
  | [] => rfl
  | a :: l => by simp [cumsum, cumsum_length l]

theorem cumsum_getElem? : ∀ (l : List ℕ) (k : ℕ), k < l.length →
    (cumsum l)[k]? = some ((l.take (k + 1)).sum) := by
  intro l
  induction l with
  | nil => intro k hk; simp at hk
  | cons a l ih =>
      intro k hk
      cases k with
      | zero => simp [cumsum]
      | succ j =>
          have hj : j < l.length := by simpa using Nat.lt_of_succ_lt_succ hk
          simp only [cumsum, List.getElem?_cons_succ, List.getElem?_map]
          rw [ih j hj]
          simp [List.take_succ_cons]

theorem exclCumsum_getElem? (l : List ℕ) {k : ℕ} (hk : k < l.length) :
    (exclCumsum l)[k]? = some ((l.take k).sum) := by
  cases k with
  | zero => simp [exclCumsum]
  | succ j =>
      have hj1 : j < (cumsum l).dropLast.length := by
        simp [cumsum_length]
        omega
      simp only [exclCumsum, List.getElem?_cons_succ]
      rw [List.getElem?_dropLast, if_pos (by simpa [cumsum_length] using hj1)]
      exact cumsum_getElem? l j (by omega)

theorem exclCumsum_length (l : List ℕ) (h : l ≠ []) :
    (exclCumsum l).length = l.length := by
  have : 1 ≤ l.length := by
    cases l with
    | nil => exact absurd rfl h
    | cons a l => simp
  simp [exclCumsum, cumsum_length]
  omega

theorem countP_lt_add_eq (l : List ℕ) (k : ℕ) :
    l.countP (fun v => decide (v < k + 1)) =
      l.countP (fun v => decide (v < k)) + l.countP (fun v => decide (v = k)) := by
  induction l with
  | nil => rfl
  | cons a l ih =>
      simp only [List.countP_cons, ih, decide_eq_true_eq]
      split_ifs <;> omega

theorem sum_range_countP (l : List ℕ) : ∀ k : ℕ,
    ((List.range k).map (fun j => l.countP (fun v => decide (v = j)))).sum =
      l.countP (fun v => decide (v < k)) := by
  intro k
  induction k with
  | zero =>
      simp [List.countP_eq_zero]
  | succ k ih =>
      rw [List.range_succ, List.map_append, List.sum_append, ih,
        countP_lt_add_eq]
      simp

/-! ## Facts about `torchUnique` and its inverse indices -/

theorem nodup_torchUnique (ns : List ℕ) : (torchUnique ns).Nodup :=
  List.nodup_dedup _

theorem mem_torchUnique {v : ℕ} {ns : List ℕ} : v ∈ torchUnique ns ↔ v ∈ ns := by
  simp [torchUnique, List.mem_dedup]

theorem length_torchUniqueInverse (ns : List ℕ) :
    (torchUniqueInverse ns).length = ns.length := by
  simp [torchUniqueInverse]

theorem length_torchUniqueCounts (ns : List ℕ) :
    (torchUniqueCounts ns).length = (torchUnique ns).length := by
  simp [torchUniqueCounts]

theorem firstIdx_iff_of_mem {ns : List ℕ} {j : ℕ}
    (hj : j < (torchUnique ns).length) {x : ℕ} (hx : x ∈ ns) :
    firstIdx x (torchUnique ns) = j ↔ x = (torchUnique ns).getD j 0 := by
  constructor
  · intro h
    have hxm : x ∈ torchUnique ns := mem_torchUnique.mpr hx
    have := getD_firstIdx hxm
    rw [h] at this
    exact this.symm
  · intro h
    rw [h]
    exact firstIdx_getD_of_nodup (nodup_torchUnique ns) hj

theorem counts_bridge (ns : List ℕ) :
    torchUniqueCounts ns =
      (List.range (torchUnique ns).length).map
        (fun j => (torchUniqueInverse ns).countP (fun v => decide (v = j))) := by
  apply List.ext_getElem
  · simp [torchUniqueCounts]
  · intro j h1 h2
    have hj : j < (torchUnique ns).length := by
      simpa [torchUniqueCounts] using h1
    simp only [torchUniqueCounts, torchUniqueInverse, List.getElem_map,
      List.getElem_range, List.countP_map]
    rw [List.count_eq_countP]
    apply List.countP_congr
    intro x hx
    have hgetD : (torchUnique ns).getD j 0 = (torchUnique ns)[j] := by
      rw [List.getD_eq_getElem?_getD, List.getElem?_eq_getElem hj]
      rfl
    have := firstIdx_iff_of_mem hj hx
    rw [hgetD] at this
    simp only [Function.comp, beq_iff_eq, decide_eq_true_eq]
    exact this.symm

theorem exclCumsum_counts_getElem? (ns : List ℕ) {j : ℕ}
    (hj : j < (torchUnique ns).length) :
    (exclCumsum (torchUniqueCounts ns))[j]? =
      some ((torchUniqueInverse ns).countP (fun v => decide (v < j))) := by
  rw [exclCumsum_getElem? _ (by rw [length_torchUniqueCounts]; exact hj)]
  congr 1
  rw [counts_bridge, ← List.map_take, List.take_range,
    Nat.min_eq_left (le_of_lt hj), sum_range_countP]

/-! ## The stable argsort selects first occurrences -/

theorem argsortStable_perm (ys : List ℕ) :
    List.Perm (argsortStable ys) (List.range ys.length) :=
  List.perm_insertionSort _ _

theorem argsortStable_sorted (ys : List ℕ) :
    List.Pairwise (stableRank ys) (argsortStable ys) :=
  List.sorted_insertionSort _ _

theorem lt_length_of_mem_argsortStable {ys : List ℕ} {i : ℕ}
    (h : i ∈ argsortStable ys) : i < ys.length :=
  List.mem_range.mp ((argsortStable_perm ys).mem_iff.mp h)

/-- The element of the stable argsort of `ys` at the position given by the
number of entries of `ys` strictly below `k` is the position of the first
occurrence of `k` in `ys`, for any value `k` occurring in `ys`. -/
theorem argsortStable_at_countP {ys : List ℕ} {k : ℕ} (hk : k ∈ ys) :
    (argsortStable ys)[(ys.countP (fun v => decide (v < k)))]? =
      some (firstIdx k ys) := by
  have hperm := argsortStable_perm ys
  have hpair := argsortStable_sorted ys
  set M := argsortStable ys with hM
  set P : ℕ → Bool := fun i => decide (ys.getD i 0 < k) with hP
  have hcountM : M.countP P = ys.countP (fun v => decide (v < k)) := by
    rw [hperm.countP_eq P]
    conv_rhs => rw [← map_getD_range ys 0]
    rw [List.countP_map]
    rfl
  have hsplit : M.takeWhile P ++ M.dropWhile P = M :=
    List.takeWhile_append_dropWhile P M
  have htake : ∀ b ∈ M.takeWhile P, P b = true := fun b hb =>
    List.mem_takeWhile_imp hb
  have hsortdrop : List.Pairwise (stableRank ys) (M.dropWhile P) :=
    List.Pairwise.sublist (List.dropWhile_sublist P) hpair
  have hdropfail : ∀ b ∈ M.dropWhile P, P b = false := by
    intro b hb
    cases hd : M.dropWhile P with
    | nil => rw [hd] at hb; cases hb
    | cons h0 rest =>
        have hh0 : P h0 = false := by
          have hhead := List.head?_dropWhile_not P M
          rw [hd] at hhead
          simpa using hhead
        rw [hd] at hb
        rcases List.mem_cons.mp hb with rfl | hb'
        · exact hh0
        · cases hPbv : P b with
          | false => rfl
          | true =>
              have hsd := hsortdrop
              rw [hd] at hsd
              have hrel : stableRank ys h0 b :=
                (List.pairwise_cons.mp hsd).1 b hb'
              have hb2 : ys.getD b 0 < k := by
                have := hPbv
                simp only [hP, decide_eq_true_eq] at this
                exact this
              have hh02 : ¬ ys.getD h0 0 < k := by
                have := hh0
                simp only [hP, decide_eq_false_iff_not] at this
                exact this
              rcases hrel with hlt | ⟨heq, _⟩
              · exact absurd (lt_trans hlt hb2) hh02
              · exact absurd (heq ▸ hb2) hh02
  have htklen : (M.takeWhile P).length = M.countP P := by
    have h1 : M.countP P =
        (M.takeWhile P).countP P + (M.dropWhile P).countP P := by
      rw [← List.countP_append, hsplit]
    have h2 : (M.takeWhile P).countP P = (M.takeWhile P).length :=
      List.countP_eq_length.mpr htake
    have h3 : (M.dropWhile P).countP P = 0 :=
      List.countP_eq_zero.mpr fun a ha => by simp [hdropfail a ha]
    omega
  have happend : ∀ (l1 l2 : List ℕ), (l1 ++ l2)[l1.length]? = l2[0]? := by
    intro l1 l2
    rw [List.getElem?_append_right (le_refl _)]
    simp
  have hM_at : M[(M.takeWhile P).length]? = (M.dropWhile P)[0]? := by
    have := happend (M.takeWhile P) (M.dropWhile P)
    rw [hsplit] at this
    exact this
  have hi0lt : firstIdx k ys < ys.length := firstIdx_lt_length hk
  have hi0get : ys.getD (firstIdx k ys) 0 = k := getD_firstIdx hk
  have hi0P : P (firstIdx k ys) = false := by
    simp only [hP, hi0get, decide_eq_false_iff_not]
    exact lt_irrefl k
  have hi0M : firstIdx k ys ∈ M :=
    hperm.mem_iff.mpr (List.mem_range.mpr hi0lt)
  have hi0drop : firstIdx k ys ∈ M.dropWhile P := by
    rcases List.mem_append.mp (hsplit ▸ hi0M) with h | h
    · have := htake _ h
      rw [hi0P] at this
      cases this
    · exact h
  cases hd : M.dropWhile P with
  | nil => rw [hd] at hi0drop; cases hi0drop
  | cons h0 rest =>
      have hh0fail : P h0 = false :=
        hdropfail h0 (hd ▸ List.mem_cons_self h0 rest)
      have hh0M : h0 ∈ M :=
        (List.dropWhile_sublist P).subset (hd ▸ List.mem_cons_self h0 rest)
      have hh0lt : h0 < ys.length :=
        List.mem_range.mp (hperm.mem_iff.mp hh0M)
      have hh0ge : ¬ ys.getD h0 0 < k := by
        have := hh0fail
        simp only [hP, decide_eq_false_iff_not] at this
        exact this
      have heq : h0 = firstIdx k ys := by
        rw [hd] at hi0drop
        rcases List.mem_cons.mp hi0drop with he | hrest
        · exact he.symm
        · have hsd := hsortdrop
          rw [hd] at hsd
          have hrel : stableRank ys h0 (firstIdx k ys) :=
            (List.pairwise_cons.mp hsd).1 _ hrest
          rcases hrel with hlt | ⟨heq2, hle⟩
          · rw [hi0get] at hlt
            exact absurd hlt hh0ge
          · rw [hi0get] at heq2
            have := firstIdx_le_of_getD hh0lt heq2
            omega
      rw [← hcountM, ← htklen, hM_at, hd, heq]
      simp

/-! ## Characterizing `first_indices` -/

theorem getD_mem_of_lt {l : List ℕ} {j : ℕ} (hj : j < l.length) :
    l.getD j 0 ∈ l := by
  rw [List.getD_eq_getElem?_getD, List.getElem?_eq_getElem hj]
  exact List.getElem_mem hj

theorem mem_torchUniqueInverse_of_lt {ns : List ℕ} {j : ℕ}
    (hj : j < (torchUnique ns).length) : j ∈ torchUniqueInverse ns := by
  have hx : (torchUnique ns).getD j 0 ∈ torchUnique ns := getD_mem_of_lt hj
  have hxns : (torchUnique ns).getD j 0 ∈ ns := mem_torchUnique.mp hx
  exact List.mem_map.mpr
    ⟨(torchUnique ns).getD j 0, hxns,
      firstIdx_getD_of_nodup (nodup_torchUnique ns) hj⟩

theorem firstIdx_inverse_eq {ns : List ℕ} {j : ℕ}
    (hj : j < (torchUnique ns).length) :
    firstIdx j (torchUniqueInverse ns) =
      firstIdx ((torchUnique ns).getD j 0) ns :=
  firstIdx_map_congr fun _ hx => firstIdx_iff_of_mem hj hx

theorem torchUnique_ne_nil {ns : List ℕ} (h : ns ≠ []) :
    torchUnique ns ≠ [] := by
  cases ns with
  | nil => exact absurd rfl h
  | cons a l =>
      exact List.ne_nil_of_mem (mem_torchUnique.mpr (List.mem_cons_self a l))

/-- The `first_indices` tensor of `predict_on_edges` is well defined whenever
the batch is nonempty, and its entry for each unique node is the position of
that node's first occurrence in the concatenated node list. -/
theorem firstIndices?_eq (ns : List ℕ) (h : ns ≠ []) :
    firstIndices? ns = some ((torchUnique ns).map fun v => firstIdx v ns) := by
  unfold firstIndices?
  have hcne : torchUniqueCounts ns ≠ [] := by
    intro hc
    have := length_torchUniqueCounts ns
    rw [hc] at this
    exact torchUnique_ne_nil h (List.length_eq_zero.mp this.symm)
  have hlen1 : (exclCumsum (torchUniqueCounts ns)).length =
      (torchUnique ns).length := by
    rw [exclCumsum_length _ hcne, length_torchUniqueCounts]
  apply gather?_pointwise
  · rw [hlen1, List.length_map]
  · intro j hj
    have hjlen : j < (torchUnique ns).length := by rw [← hlen1]; exact hj
    refine ⟨(torchUniqueInverse ns).countP (fun v => decide (v < j)), ?_, ?_⟩
    · exact exclCumsum_counts_getElem? ns hjlen
    · rw [argsortStable_at_countP (mem_torchUniqueInverse_of_lt hjlen),
        List.getElem?_map, List.getElem?_eq_getElem hjlen]
      rw [firstIdx_inverse_eq hjlen]
      have : (torchUnique ns).getD j 0 = (torchUnique ns)[j] := by
        rw [List.getD_eq_getElem?_getD, List.getElem?_eq_getElem hjlen]
        rfl
      rw [this]
      rfl

/-! ## The inferred first-event timestamps -/

theorem length_allTimesOf (t : List ℕ) : (allTimesOf t).length = 3 * t.length := by
  simp [allTimesOf]
  omega

theorem length_allNodesOf (src pos : List ℕ) (negOpt : Option (List ℕ)) :
    (allNodesOf src pos negOpt).length =
      src.length + pos.length +
        (match negOpt with | some neg => neg.length | none => 0) := by
  cases negOpt with
  | none => simp [allNodesOf]
  | some neg => simp [allNodesOf]; omega

/-- When every first-occurrence position is within the tripled timestamp
tensor, the inferred first-event timestamps are defined, and the entry of each
unique node is the timestamp at that node's first occurrence. -/
theorem firstEventTimestamps?_eq (ns t : List ℕ) (hne : ns ≠ [])
    (hlen : ns.length ≤ (allTimesOf t).length) :
    firstEventTimestamps? ns t =
      some ((torchUnique ns).map fun v => (allTimesOf t).getD (firstIdx v ns) 0) := by
  unfold firstEventTimestamps?
  rw [firstIndices?_eq ns hne]
  simp only [Option.some_bind]
  rw [gather?_eq_map (allTimesOf t) (fun i => (allTimesOf t).getD i 0) ?ptw]
  case ptw =>
    intro i hi
    obtain ⟨v, hv, rfl⟩ := List.mem_map.mp hi
    have hvns : v ∈ ns := mem_torchUnique.mp hv
    exact getElem?_of_lt (lt_of_lt_of_le (firstIdx_lt_length hvns) hlen) 0
  rw [List.map_map]
  rfl

/-! ## Dissecting `predict_on_edges` -/

/-- `predict_on_edges` equals the composition of the first-event-timestamp
computation, the time-embedding module, the `_assoc` lookup, and the link
predictor on the source / positive-target / negative-target embeddings. -/
theorem predict_on_edges_eq (m : JODIE) (src pos : List ℕ)
    (negOpt : Option (List ℕ)) (d : TemporalData) :
    predict_on_edges m src pos negOpt d =
      (localEmbeddings? m (allNodesOf src pos negOpt) d.t src).bind fun se =>
      (localEmbeddings? m (allNodesOf src pos negOpt) d.t pos).bind fun pe =>
      match negOpt with
      | none => some { y_pred_pos := m.link_pred se pe, y_pred_neg := none }
      | some neg =>
          (localEmbeddings? m (allNodesOf src pos negOpt) d.t neg).bind fun ne =>
          some { y_pred_pos := m.link_pred se pe,
                 y_pred_neg := some (m.link_pred se ne) } := by
  cases negOpt with
  | none =>
      cases h1 : gather? (argsortStable (torchUniqueInverse (allNodesOf src pos none)))
          (exclCumsum (torchUniqueCounts (allNodesOf src pos none))) with
      | none =>
          simp [predict_on_edges, localEmbeddings?, nodeEmbeddings?,
            firstEventTimestamps?, firstIndices?, h1]
      | some fi =>
      cases h2 : gather? (allTimesOf d.t) fi with
      | none =>
          simp [predict_on_edges, localEmbeddings?, nodeEmbeddings?,
            firstEventTimestamps?, firstIndices?, h1, h2]
      | some nfet =>
      cases h3 : gather? (scatterArange m.assoc (torchUnique (allNodesOf src pos none))) src with
      | none =>
          simp [predict_on_edges, localEmbeddings?, nodeEmbeddings?,
            firstEventTimestamps?, firstIndices?, h1, h2, h3]
      | some src_loc =>
      cases h4 : gather?
          (m.gnn (memoryForward m (torchUnique (allNodesOf src pos none))).1
            (memoryForward m (torchUnique (allNodesOf src pos none))).2 nfet) src_loc with
      | none =>
          simp [predict_on_edges, localEmbeddings?, nodeEmbeddings?,
            firstEventTimestamps?, firstIndices?, h1, h2, h3, h4]
      | some src_emb =>
      cases h5 : gather? (scatterArange m.assoc (torchUnique (allNodesOf src pos none))) pos with
      | none =>
          simp [predict_on_edges, localEmbeddings?, nodeEmbeddings?,
            firstEventTimestamps?, firstIndices?, h1, h2, h3, h4, h5]
      | some pos_loc =>
      cases h6 : gather?
          (m.gnn (memoryForward m (torchUnique (allNodesOf src pos none))).1
            (memoryForward m (torchUnique (allNodesOf src pos none))).2 nfet) pos_loc with
      | none =>
          simp [predict_on_edges, localEmbeddings?, nodeEmbeddings?,
            firstEventTimestamps?, firstIndices?, h1, h2, h3, h4, h5, h6]
      | some pos_emb =>
          simp [predict_on_edges, localEmbeddings?, nodeEmbeddings?,
            firstEventTimestamps?, firstIndices?, h1, h2, h3, h4, h5, h6]
  | some neg =>
      cases h1 : gather? (argsortStable (torchUniqueInverse (allNodesOf src pos (some neg))))
          (exclCumsum (torchUniqueCounts (allNodesOf src pos (some neg)))) with
      | none =>
          simp [predict_on_edges, localEmbeddings?, nodeEmbeddings?,
            firstEventTimestamps?, firstIndices?, h1]
      | some fi =>
      cases h2 : gather? (allTimesOf d.t) fi with
      | none =>
          simp [predict_on_edges, localEmbeddings?, nodeEmbeddings?,
            firstEventTimestamps?, firstIndices?, h1, h2]
      | some nfet =>
      cases h3 : gather? (scatterArange m.assoc (torchUnique (allNodesOf src pos (some neg)))) src with
      | none =>
          simp [predict_on_edges, localEmbeddings?, nodeEmbeddings?,
            firstEventTimestamps?, firstIndices?, h1, h2, h3]
      | some src_loc =>
      cases h4 : gather?
          (m.gnn (memoryForward m (torchUnique (allNodesOf src pos (some neg)))).1
            (memoryForward m (torchUnique (allNodesOf src pos (some neg)))).2 nfet) src_loc with
      | none =>
          simp [predict_on_edges, localEmbeddings?, nodeEmbeddings?,
            firstEventTimestamps?, firstIndices?, h1, h2, h3, h4]
      | some src_emb =>
      cases h5 : gather? (scatterArange m.assoc (torchUnique (allNodesOf src pos (some neg)))) pos with
      | none =>
          simp [predict_on_edges, localEmbeddings?, nodeEmbeddings?,
            firstEventTimestamps?, firstIndices?, h1, h2, h3, h4, h5]
      | some pos_loc =>
      cases h6 : gather?
          (m.gnn (memoryForward m (torchUnique (allNodesOf src pos (some neg)))).1
            (memoryForward m (torchUnique (allNodesOf src pos (some neg)))).2 nfet) pos_loc with
      | none =>
          simp [predict_on_edges, localEmbeddings?, nodeEmbeddings?,
            firstEventTimestamps?, firstIndices?, h1, h2, h3, h4, h5, h6]
      | some pos_emb =>
      cases h7 : gather? (scatterArange m.assoc (torchUnique (allNodesOf src pos (some neg)))) neg with
      | none =>
          simp [predict_on_edges, localEmbeddings?, nodeEmbeddings?,
            firstEventTimestamps?, firstIndices?, h1, h2, h3, h4, h5, h6, h7]
      | some neg_loc =>
      cases h8 : gather?
          (m.gnn (memoryForward m (torchUnique (allNodesOf src pos (some neg)))).1
            (memoryForward m (torchUnique (allNodesOf src pos (some neg)))).2 nfet) neg_loc with
      | none =>
          simp [predict_on_edges, localEmbeddings?, nodeEmbeddings?,
            firstEventTimestamps?, firstIndices?, h1, h2, h3, h4, h5, h6, h7, h8]
      | some neg_emb =>
          simp [predict_on_edges, localEmbeddings?, nodeEmbeddings?,
            firstEventTimestamps?, firstIndices?, h1, h2, h3, h4, h5, h6, h7, h8]

/-! ## Claim theorems -/

/-- C1: `_initialize_model` creates exactly the components named `memory`
(a `TGNMemory`), `gnn` (a `TimeEmbedding`) and `link_pred` (a
`LinkPredictor`), plus `struct_mapper` if and only if
`structural_mapping_hidden_dim > 0`; `has_struct_mapper` returns true exactly
when `structural_mapping_hidden_dim > 0`, and `has_memory` returns `True` for
every instance. -/
theorem jodie_C1 (cfg : ModelConfig) (m : JODIE) :
    ((initialize_components cfg).map Prod.fst =
      if cfg.structural_mapping_hidden_dim > 0 then
        ["memory", "gnn", "link_pred", "struct_mapper"]
      else ["memory", "gnn", "link_pred"]) ∧
    (initialize_components cfg).lookup "memory" = some ComponentKind.tgnMemory ∧
    (initialize_components cfg).lookup "gnn" = some ComponentKind.timeEmbedding ∧
    (initialize_components cfg).lookup "link_pred" =
      some ComponentKind.linkPredictor ∧
    ((initialize_components cfg).lookup "struct_mapper" =
        some ComponentKind.structMapper ↔
      cfg.structural_mapping_hidden_dim > 0) ∧
    (has_struct_mapper m = true ↔ m.config.structural_mapping_hidden_dim > 0) ∧
    has_memory m = true := by
  by_cases h : cfg.structural_mapping_hidden_dim > 0 <;>
    simp [initialize_components, h, has_struct_mapper, has_memory, List.lookup]

/-- C2: the model loss returned by `compute_loss` is the BCE-with-logits
criterion applied to `y_pred_pos` against an all-ones target, plus the same
criterion applied to `y_pred_neg` against an all-zeros target when
`y_pred_neg` is present; when `y_pred_neg` is `None` the positive term stands
alone. -/
theorem jodie_C2 (m : JODIE) (mp : ModelPrediction)
    (pme me : List (List ℚ)) :
    (compute_loss m mp pme me).1 =
      m.criterion mp.y_pred_pos (onesLike mp.y_pred_pos) +
        (match mp.y_pred_neg with
         | some y_neg => m.criterion y_neg (zerosLike y_neg)
         | none => 0) := by
  cases hmp : mp.y_pred_neg <;> simp [compute_loss, hmp]

/-- C3: the structural-mapping loss returned by `compute_loss` is `alpha`
times the MSE criterion between `predicted_memory_emb` and `memory_emb` when
the struct mapper is present, and the constant `0.0` — ignoring both inputs —
when it is absent. -/
theorem jodie_C3 (m : JODIE) (mp : ModelPrediction)
    (pme me : List (List ℚ)) :
    (compute_loss m mp pme me).2 =
      if has_struct_mapper m then m.config.alpha * m.criterion_struct pme me
      else 0 := by
  by_cases h : has_struct_mapper m = true
  · simp [compute_loss, h, mul_comm]
  · simp [compute_loss, h]

/-- C7: the memory state produced by `update_memory` depends only on the
source nodes, positive target nodes, timestamps, messages and the prior
state: two calls differing arbitrarily in `target_nodes_neg`,
`last_neighbor_loader` and `data` produce equal states (and equal models). -/
theorem jodie_C7 (m : JODIE) (src pos ts : List ℕ) (msgs : List (List ℚ))
    (neg1 neg2 : Option (List ℕ)) (lo1 lo2 : LastNeighborLoader)
    (d1 d2 : TemporalData) :
    (update_memory m src pos neg1 ts msgs lo1 d1).memory_state =
        (update_memory m src pos neg2 ts msgs lo2 d2).memory_state ∧
      update_memory m src pos neg1 ts msgs lo1 d1 =
        update_memory m src pos neg2 ts msgs lo2 d2 :=
  ⟨rfl, rfl⟩

/-- C8: `get_memory_embeddings` returns only the first row `z[0]` of the
memory embeddings — the memory vector of the first listed node — so for a
batch of more than one node the result is independent of every entry after
the first. -/
theorem jodie_C8 (m : JODIE) (a : ℕ) (r1 r2 : List ℕ) :
    get_memory_embeddings m (a :: r1) = get_memory_embeddings m (a :: r2) ∧
      get_memory_embeddings m (a :: r1) = some (m.memory_state.memVec a) :=
  ⟨rfl, rfl⟩

/-- C9: `predict_memory_embeddings` raises exactly when the struct mapper is
absent (`structural_mapping_hidden_dim ≤ 0`), and otherwise returns the
struct mapper applied to the given structural features. -/
theorem jodie_C9 (m : JODIE) (feat : List (List ℚ)) :
    ((predict_memory_embeddings m feat =
        Except.error "Struct mapper is not available.") ↔
      has_struct_mapper m = false) ∧
    ((predict_memory_embeddings m feat = Except.ok (m.struct_mapper feat)) ↔
      has_struct_mapper m = true) ∧
    (has_struct_mapper m = true ↔ 0 < m.config.structural_mapping_hidden_dim) := by
  by_cases h : 0 < m.config.structural_mapping_hidden_dim <;>
    simp [predict_memory_embeddings, has_struct_mapper, h]

/-- C4: whenever `predict_on_edges` returns a prediction, the node
embeddings it uses are the `TimeEmbedding` module applied to the memory
embeddings of the unique batch nodes, their last-updated timestamps and the
inferred first-event timestamps, in that order, and `y_pred_pos` is the link
predictor applied to the embeddings of `source_nodes` and
`target_nodes_pos`. -/
theorem jodie_C4 (m : JODIE) (src pos : List ℕ) (negOpt : Option (List ℕ))
    (d : TemporalData) (pred : ModelPrediction)
    (hp : predict_on_edges m src pos negOpt d = some pred) :
    ∃ se pe,
      localEmbeddings? m (allNodesOf src pos negOpt) d.t src = some se ∧
      localEmbeddings? m (allNodesOf src pos negOpt) d.t pos = some pe ∧
      pred.y_pred_pos = m.link_pred se pe := by
  rw [predict_on_edges_eq] at hp
  cases hse : localEmbeddings? m (allNodesOf src pos negOpt) d.t src with
  | none => rw [hse] at hp; simp at hp
  | some se =>
      rw [hse] at hp
      simp only [Option.some_bind] at hp
      cases hpe : localEmbeddings? m (allNodesOf src pos negOpt) d.t pos with
      | none => rw [hpe] at hp; simp at hp
      | some pe =>
          rw [hpe] at hp
          simp only [Option.some_bind] at hp
          refine ⟨se, pe, rfl, rfl, ?_⟩
          cases negOpt with
          | none =>
              obtain rfl := Option.some.inj hp
              rfl
          | some neg =>
              have hp' : (localEmbeddings? m (allNodesOf src pos (some neg)) d.t
                    neg).bind (fun ne =>
                  some { y_pred_pos := m.link_pred se pe,
                         y_pred_neg := some (m.link_pred se ne) }) = some pred := hp
              cases hne : localEmbeddings? m (allNodesOf src pos (some neg)) d.t neg with
              | none => rw [hne] at hp'; simp at hp'
              | some ne =>
                  rw [hne] at hp'
                  simp only [Option.some_bind] at hp'
                  obtain rfl := Option.some.inj hp'
                  rfl

/-- C6: the returned prediction has `y_pred_neg = None` exactly when
`target_nodes_neg` is `None`; when negative targets are given, `y_pred_neg`
is the link predictor applied to the embeddings of `source_nodes` and
`target_nodes_neg`. -/
theorem jodie_C6 (m : JODIE) (src pos : List ℕ) (negOpt : Option (List ℕ))
    (d : TemporalData) (pred : ModelPrediction)
    (hp : predict_on_edges m src pos negOpt d = some pred) :
    (pred.y_pred_neg = none ↔ negOpt = none) ∧
    (∀ neg, negOpt = some neg →
      ∃ se ne,
        localEmbeddings? m (allNodesOf src pos negOpt) d.t src = some se ∧
        localEmbeddings? m (allNodesOf src pos negOpt) d.t neg = some ne ∧
        pred.y_pred_neg = some (m.link_pred se ne)) := by
  rw [predict_on_edges_eq] at hp
  cases hse : localEmbeddings? m (allNodesOf src pos negOpt) d.t src with
  | none => rw [hse] at hp; simp at hp
  | some se =>
      rw [hse] at hp
      simp only [Option.some_bind] at hp
      cases hpe : localEmbeddings? m (allNodesOf src pos negOpt) d.t pos with
      | none => rw [hpe] at hp; simp at hp
      | some pe =>
          rw [hpe] at hp
          simp only [Option.some_bind] at hp
          cases negOpt with
          | none =>
              obtain rfl := Option.some.inj hp
              exact ⟨by simp, fun neg h => by cases h⟩
          | some neg =>
              have hp' : (localEmbeddings? m (allNodesOf src pos (some neg)) d.t
                    neg).bind (fun ne =>
                  some { y_pred_pos := m.link_pred se pe,
                         y_pred_neg := some (m.link_pred se ne) }) = some pred := hp
              cases hne : localEmbeddings? m (allNodesOf src pos (some neg)) d.t neg with
              | none => rw [hne] at hp'; simp at hp'
              | some ne =>
                  rw [hne] at hp'
                  simp only [Option.some_bind] at hp'
                  obtain rfl := Option.some.inj hp'
                  refine ⟨by simp, fun neg' h => ?_⟩
                  obtain rfl : neg' = neg := (Option.some.inj h).symm
                  exact ⟨se, ne, rfl, hne, rfl⟩

/-- C5: under the length preconditions, for every node `v` of the
concatenated batch, the inferred first-event-timestamp entry of `v` (at `v`'s
position in the unique node list) is the entry of the tripled timestamp
tensor at the position of `v`'s first occurrence in the concatenation. -/
theorem jodie_C5 (src pos : List ℕ) (negOpt : Option (List ℕ))
    (d : TemporalData) (v : ℕ)
    (hsrc : src.length = d.t.length) (hpos : pos.length = d.t.length)
    (hneg : ∀ neg, negOpt = some neg → neg.length = d.t.length)
    (hv : v ∈ allNodesOf src pos negOpt) :
    ∃ nfet,
      firstEventTimestamps? (allNodesOf src pos negOpt) d.t = some nfet ∧
      nfet[firstIdx v (torchUnique (allNodesOf src pos negOpt))]? =
        (allTimesOf d.t)[firstIdx v (allNodesOf src pos negOpt)]? := by
  have hne : allNodesOf src pos negOpt ≠ [] := List.ne_nil_of_mem hv
  have hlen : (allNodesOf src pos negOpt).length ≤ (allTimesOf d.t).length := by
    rw [length_allTimesOf, length_allNodesOf]
    cases negOpt with
    | none => simp; omega
    | some neg =>
        have := hneg neg rfl
        simp
        omega
  refine ⟨_, firstEventTimestamps?_eq (allNodesOf src pos negOpt) d.t hne hlen, ?_⟩
  have hvnid : v ∈ torchUnique (allNodesOf src pos negOpt) :=
    mem_torchUnique.mpr hv
  have hklt : firstIdx v (torchUnique (allNodesOf src pos negOpt)) <
      (torchUnique (allNodesOf src pos negOpt)).length :=
    firstIdx_lt_length hvnid
  rw [List.getElem?_map, List.getElem?_eq_getElem hklt]
  simp only [Option.map_some']
  have hval : (torchUnique (allNodesOf src pos negOpt))[firstIdx v
      (torchUnique (allNodesOf src pos negOpt))] = v := by
    have h1 := getD_firstIdx hvnid
    rw [List.getD_eq_getElem?_getD, List.getElem?_eq_getElem hklt] at h1
    exact h1
  rw [hval]
  have hlt : firstIdx v (allNodesOf src pos negOpt) < (allTimesOf d.t).length :=
    lt_of_lt_of_le (firstIdx_lt_length hv) hlen
  rw [List.getElem?_eq_getElem hlt, List.getD_eq_getElem?_getD,
    List.getElem?_eq_getElem hlt]
  rfl

/-- C10: under the length preconditions, every first-occurrence index is
strictly below the length of the concatenated node list, which never exceeds
the length `3n` of the tripled timestamp tensor, so the indexing
`all_times[first_indices]` is in bounds and succeeds. -/
theorem jodie_C10 (src pos : List ℕ) (negOpt : Option (List ℕ))
    (d : TemporalData) (fi : List ℕ)
    (hsrc : src.length = d.t.length) (hpos : pos.length = d.t.length)
    (hneg : ∀ neg, negOpt = some neg → neg.length = d.t.length)
    (hfi : firstIndices? (allNodesOf src pos negOpt) = some fi) :
    (∀ i ∈ fi, i < (allNodesOf src pos negOpt).length ∧
      i < (allTimesOf d.t).length) ∧
    (gather? (allTimesOf d.t) fi).isSome = true := by
  have hlen : (allNodesOf src pos negOpt).length ≤ (allTimesOf d.t).length := by
    rw [length_allTimesOf, length_allNodesOf]
    cases negOpt with
    | none => simp; omega
    | some neg =>
        have := hneg neg rfl
        simp
        omega
  unfold firstIndices? at hfi
  have hmem : ∀ i ∈ fi, i < (allNodesOf src pos negOpt).length := by
    intro i hi
    have h1 : i ∈ argsortStable (torchUniqueInverse (allNodesOf src pos negOpt)) :=
      mem_of_gather? hfi i hi
    have h2 := lt_length_of_mem_argsortStable h1
    rwa [length_torchUniqueInverse] at h2
  exact ⟨fun i hi => ⟨hmem i hi, lt_of_lt_of_le (hmem i hi) hlen⟩,
    gather?_isSome 0 fun i hi => lt_of_lt_of_le (hmem i hi) hlen⟩

/-! ## A concrete model instance used to witness the theorems above -/

/-- A small concrete configuration. -/
def testConfig : ModelConfig :=
  { memory_dimension := 1, time_dimension := 1, embedding_dimension := 1,
    learning_rate := 0, structural_mapping_hidden_dim := 1, alpha := 1 }

/-- A small concrete JODIE instance with four nodes and constant modules. -/
def testModel : JODIE :=
  { config := testConfig
    total_num_nodes := 4
    assoc := [0, 0, 0, 0]
    memory_state := { memVec := fun _ => [0], lastUpdate := fun _ => 0 }
    update_state := fun s _ _ _ _ => s
    gnn := fun me _ _ => me
    link_pred := fun a _ => a.map fun _ => 0
    struct_mapper := fun x => x
    criterion := fun _ _ => 0
    criterion_struct := fun _ _ => 0 }

/-- Witness for C4 at a concrete prediction of `testModel`. -/
theorem jodie_C4_witness :
    ∃ se pe,
      localEmbeddings? testModel (allNodesOf [0] [1] none)
        (TemporalData.mk [5]).t [0] = some se ∧
      localEmbeddings? testModel (allNodesOf [0] [1] none)
        (TemporalData.mk [5]).t [1] = some pe ∧
      (ModelPrediction.mk [0] none).y_pred_pos = testModel.link_pred se pe :=
  jodie_C4 testModel [0] [1] none (TemporalData.mk [5])
    (ModelPrediction.mk [0] none) rfl

/-- Witness for C6 at a concrete prediction of `testModel` with negative
targets. -/
theorem jodie_C6_witness :
    ((ModelPrediction.mk [0] (some [0])).y_pred_neg = none ↔
      (some [1] : Option (List ℕ)) = none) ∧
    (∀ neg, (some [1] : Option (List ℕ)) = some neg →
      ∃ se ne,
        localEmbeddings? testModel (allNodesOf [0] [1] (some [1]))
          (TemporalData.mk [5]).t [0] = some se ∧
        localEmbeddings? testModel (allNodesOf [0] [1] (some [1]))
          (TemporalData.mk [5]).t neg = some ne ∧
        (ModelPrediction.mk [0] (some [0])).y_pred_neg =
          some (testModel.link_pred se ne)) :=
  jodie_C6 testModel [0] [1] (some [1]) (TemporalData.mk [5])
    (ModelPrediction.mk [0] (some [0])) rfl

/-- Witness for C5 on a concrete batch with a repeated node. -/
theorem jodie_C5_witness :
    ∃ nfet,
      firstEventTimestamps? (allNodesOf [5] [3] (some [5]))
        (TemporalData.mk [9]).t = some nfet ∧
      nfet[firstIdx 5 (torchUnique (allNodesOf [5] [3] (some [5])))]? =
        (allTimesOf (TemporalData.mk [9]).t)[firstIdx 5
          (allNodesOf [5] [3] (some [5]))]? :=
  jodie_C5 [5] [3] (some [5]) (TemporalData.mk [9]) 5 rfl rfl
    (fun neg h => by
      obtain rfl : neg = [5] := (Option.some.inj h).symm
      rfl)
    (by decide)

/-- Witness for C10 on a concrete batch. -/
theorem jodie_C10_witness :
    (∀ i ∈ [0, 1], i < (allNodesOf [0] [1] none).length ∧
      i < (allTimesOf (TemporalData.mk [5]).t).length) ∧
    (gather? (allTimesOf (TemporalData.mk [5]).t) [0, 1]).isSome = true :=
  jodie_C10 [0] [1] none (TemporalData.mk [5]) [0, 1] rfl rfl
    (fun _ h => Option.noConfusion h) rfl
